import Mathlib

/-!
URL matchers of package `ant` (matchers.go).

A shallow embedding of `matchers.go` and the properties of its matchers.

Go strings are embedded as Lean strings. The only place where the source looks
inside a string is `p[0] != '/'` in `normalizePath`; on UTF-8 text the first
byte is `0x2F` exactly when the first character is `'/'`, so the test is read as
a test on the first character.

A `*url.URL` is embedded as a value of the structure `URL` (the pointer is
taken to be non-nil). The matchers read the fields `Host` and `Path` only.
-/

namespace Ant

/-- Userinfo of a URL (`url.Userinfo`): a user name and an optional password. -/
structure Userinfo where
  username : String
  password : String
  passwordSet : Bool
deriving DecidableEq, Repr

/-- The fields of Go's `url.URL`. -/
structure URL where
  Scheme : String := ""
  Opaque : String := ""
  User : Option Userinfo := none
  Host : String := ""
  Path : String := ""
  RawPath : String := ""
  OmitHost : Bool := false
  ForceQuery : Bool := false
  RawQuery : String := ""
  Fragment : String := ""
  RawFragment : String := ""
deriving DecidableEq, Repr

/-- MatcherFunc implements a Matcher: `type MatcherFunc func(*url.URL) bool`. -/
abbrev MatcherFunc := URL → Bool

/-- Match implementation: `func (mf MatcherFunc) Match(url *url.URL) bool`. -/
def MatcherFunc.Match (mf : MatcherFunc) (url : URL) : Bool :=
  mf url

/-- MatchHostname returns a new hostname matcher. -/
def MatchHostname (host : String) : MatcherFunc :=
  fun url => decide (url.Host = host)

/-- NormalizePath normalizes the given path:
`if len(p) > 0 && p[0] != '/' { return "/" + p }; return p`. -/
def normalizePath (p : String) : String :=
  if p.length > 0 && p.get 0 != '/' then "/" ++ p else p

/-- Modelled from the spec: the matcher `match.Match` that `MatchPattern` calls
belongs to the imported package `github.com/tidwall/match`, which is not part of
the sources. Spec, section 4.3: literal characters match exactly, `*` matches any
run including empty, `?` matches exactly one character, and the pattern is
evaluated over the entire subject. The spec also names bracket expressions but
gives no syntax for them; they are not modelled, every character other than `*`
and `?` stands for itself here, and what a pattern matches is stated only for
patterns without `[`, `]` and backslash. First argument: the pattern; second: the
subject. -/
def Glob.matchChars : List Char → List Char → Bool
  | [], s => s.isEmpty
  | c :: p, s =>
    if c = '*' then s.tails.any (fun t => Glob.matchChars p t)
    else
      match s with
      | [] => false
      | d :: t => (c = '?' || c = d) && Glob.matchChars p t

/-- Modelled from the spec: `match.Match(str, pattern)` of the imported package
`github.com/tidwall/match`, on strings (see `Glob.matchChars`). -/
def Glob.Match (str pattern : String) : Bool :=
  Glob.matchChars pattern.data str.data

/-- MatchPattern with the imported matcher `match.Match` as a parameter:
`return match.Match(url.Host+normalizePath(url.Path), pattern)`. -/
def MatchPatternVia (matchFn : String → String → Bool) (pattern : String) : MatcherFunc :=
  fun url => matchFn (url.Host ++ normalizePath url.Path) pattern

/-- MatchPattern returns a new pattern matcher. -/
def MatchPattern (pattern : String) : MatcherFunc :=
  MatchPatternVia Glob.Match pattern

/-- The functions of Go's standard library that `MatchRegexp` calls: the type
`*regexp.Regexp`, `regexp.Compile` (the error is kept as its message),
`(*Regexp).MatchString`, and the `%q` verb of `fmt.Sprintf`. -/
structure Stdlib where
  Regexp : Type
  Compile : String → Except String Regexp
  MatchString : Regexp → String → Bool
  Quote : String → String

/-- MatchRegexp returns a new regexp matcher. A panic is embedded as
`Except.error` carrying the panic message. -/
def MatchRegexp (L : Stdlib) (expr : String) : Except String MatcherFunc :=
  match L.Compile expr with
  | .error err => .error ("ant: regexp " ++ L.Quote expr ++ " - " ++ err)
  | .ok re => .ok (fun url => L.MatchString re (url.Host ++ normalizePath url.Path))

/-! ## Predicates and inputs used to state the properties -/

/-- The URL `https://example.com/blog/post1?x=1`, as `url.Parse` returns it. -/
def exampleHttps : URL :=
  { Scheme := "https", Host := "example.com", Path := "/blog/post1", RawQuery := "x=1" }

/-- The URL `http://example.com/blog/post1`, as `url.Parse` returns it. -/
def exampleHttp : URL :=
  { Scheme := "http", Host := "example.com", Path := "/blog/post1" }

/-- A small instance of `Stdlib`: every expression compiles to itself and matches
the subjects that contain it as a substring; `%q` adds double quotes. It serves
as a concrete library where a statement about all libraries is instantiated. -/
def substringLib : Stdlib where
  Regexp := String
  Compile := fun expr => .ok expr
  MatchString := fun re s => s.data.tails.any (fun t => re.data.isPrefixOf t)
  Quote := fun s => "\"" ++ s ++ "\""

/-- The subject `host` or `host/rest` as the spec describes it: `h` when the
path is empty, otherwise `h`, then `/`, then the path without its leading slash
if it has one. -/
def specSubject (h p : String) : String :=
  match p.data with
  | [] => h
  | c :: cs => h ++ "/" ++ (if c = '/' then String.mk cs else p)

/-- The string `s` starts with `pre`. -/
def startsWith (s pre : String) : Bool :=
  pre.data.isPrefixOf s.data

/-- Every character of `s` is literal in a glob pattern: none of
`*`, `?`, `[`, `]`, backslash. -/
def literal (s : String) : Bool :=
  s.data.all (fun c => !(c = '*' || c = '?' || c = '[' || c = ']' || c = '\\'))

/-! ## A model of package `regexp` -/

/-- Modelled from the spec: the syntax tree of a compiled expression. Package
`regexp` of Go's standard library is not part of the sources. The spec (sections
4.5 and 8) speaks of a regular expression that is compiled, that finds a match
anywhere within the subject unless it carries the anchors `^` and `$`, and whose
source is invalid with an unbalanced parenthesis. The model covers literal
characters, backslash-escaped punctuation, `.`, `^`, `$`, groups, `|` and one
repetition operator `*`, `+` or `?` after an item. Character classes, counted
repetition, flags and escapes of letters or digits are outside the model: it
reports them as errors although Go compiles them, and nothing is stated about
them. The constructors follow the operators of `regexp/syntax`. -/
inductive Re.Regexp where
  | emptyMatch : Re.Regexp
  | literal (c : Char) : Re.Regexp
  | anyCharNotNL : Re.Regexp
  | beginText : Re.Regexp
  | endText : Re.Regexp
  | capture (a : Re.Regexp) : Re.Regexp
  | star (a : Re.Regexp) : Re.Regexp
  | plus (a : Re.Regexp) : Re.Regexp
  | quest (a : Re.Regexp) : Re.Regexp
  | concat (a b : Re.Regexp) : Re.Regexp
  | alternate (a b : Re.Regexp) : Re.Regexp
deriving DecidableEq, Repr

/-- Modelled from the spec: a group under construction while the expression is
read: the alternatives already closed by `|` and the items of the current
concatenation, both last first. -/
structure Re.Frame where
  alts : List Re.Regexp := []
  items : List Re.Regexp := []
deriving DecidableEq, Repr

/-- Modelled from the spec: the state of the reader: the group being read, the
enclosing groups, whether the previous character was an unescaped backslash, and
whether the previous item was a repetition operator. -/
structure Re.ParseState where
  cur : Re.Frame := {}
  stack : List Re.Frame := []
  escaped : Bool := false
  afterRepeat : Bool := false
deriving DecidableEq, Repr

/-- Modelled from the spec: the concatenation of a list of items. -/
def Re.concatOf (l : List Re.Regexp) : Re.Regexp :=
  l.foldr Re.Regexp.concat Re.Regexp.emptyMatch

/-- Modelled from the spec: the alternation of a non-empty list of alternatives. -/
def Re.altOf : List Re.Regexp → Re.Regexp
  | [] => Re.Regexp.emptyMatch
  | [a] => a
  | a :: b :: l => Re.Regexp.alternate a (Re.altOf (b :: l))

/-- Modelled from the spec: the expression that a finished group stands for. -/
def Re.closeFrame (f : Re.Frame) : Re.Regexp :=
  Re.altOf (Re.concatOf f.items.reverse :: f.alts).reverse

/-- Modelled from the spec: an item is added to the current concatenation. -/
def Re.push (st : Re.ParseState) (r : Re.Regexp) : Re.ParseState :=
  { st with cur := { st.cur with items := r :: st.cur.items }, escaped := false,
            afterRepeat := false }

/-- Modelled from the spec: a repetition operator is applied to the last item.
An operator with no item before it is an error, as in Go. An operator right
after another operator is outside the model and is reported as an error too. -/
def Re.applyRepeat (st : Re.ParseState) (op : Re.Regexp → Re.Regexp) :
    Except String Re.ParseState :=
  if st.afterRepeat then .error "not modelled: repetition operator after repetition operator"
  else
    match st.cur.items with
    | [] => .error "missing argument to repetition operator"
    | r :: rest =>
      .ok { st with cur := { st.cur with items := op r :: rest }, afterRepeat := true }

/-- Modelled from the spec: one character of the expression is read. After a
backslash an ASCII character that is neither a letter nor a digit stands for
itself; other escapes (classes such as `\d`) are outside the model, as are `[`
and `{`, and are reported as errors. -/
def Re.step (st : Re.ParseState) (c : Char) : Except String Re.ParseState :=
  if st.escaped then
    if c.toNat < 128 && !c.isAlphanum then .ok (Re.push st (Re.Regexp.literal c))
    else .error "not modelled: escape sequence"
  else if c = '\\' then .ok { st with escaped := true }
  else if c = '(' then
    .ok { st with cur := {}, stack := st.cur :: st.stack, afterRepeat := false }
  else if c = ')' then
    match st.stack with
    | [] => .error "unexpected )"
    | parent :: rest =>
      .ok { st with
            cur := { parent with
                     items := Re.Regexp.capture (Re.closeFrame st.cur) :: parent.items },
            stack := rest, afterRepeat := false }
  else if c = '|' then
    .ok { st with
          cur := { alts := Re.concatOf st.cur.items.reverse :: st.cur.alts, items := [] },
          afterRepeat := false }
  else if c = '*' then Re.applyRepeat st Re.Regexp.star
  else if c = '+' then Re.applyRepeat st Re.Regexp.plus
  else if c = '?' then Re.applyRepeat st Re.Regexp.quest
  else if c = '.' then .ok (Re.push st Re.Regexp.anyCharNotNL)
  else if c = '^' then .ok (Re.push st Re.Regexp.beginText)
  else if c = '$' then .ok (Re.push st Re.Regexp.endText)
  else if c = '[' then .error "not modelled: character class"
  else if c = '{' then .error "not modelled: counted repetition"
  else .ok (Re.push st (Re.Regexp.literal c))

/-- Modelled from the spec: the characters of the expression are read in order. -/
def Re.parseLoop (st : Re.ParseState) : List Char → Except String Re.ParseState
  | [] => .ok st
  | c :: cs =>
    match Re.step st c with
    | .error e => .error e
    | .ok st1 => Re.parseLoop st1 cs

/-- Modelled from the spec: the end of the expression: a pending backslash or an
open group is an error (the unbalanced parenthesis of the spec). -/
def Re.finish (st : Re.ParseState) : Except String Re.Regexp :=
  if st.escaped then .error "trailing backslash at end of expression"
  else if st.stack.isEmpty then .ok (Re.closeFrame st.cur)
  else .error "missing closing )"

/-- Modelled from the spec: `regexp.Compile`. -/
def Re.Compile (expr : String) : Except String Re.Regexp :=
  match Re.parseLoop {} expr.data with
  | .error e => .error ("error parsing regexp: " ++ e)
  | .ok st =>
    match Re.finish st with
    | .error e => .error ("error parsing regexp: " ++ e)
    | .ok re => .ok re

/-- Modelled from the spec: a position in the subject: whether it is the
beginning of the text, and the characters that remain. -/
abbrev Re.Pos := Bool × List Char

/-- Modelled from the spec: the positions reached by repeating `f` any number of
times from `pos`; each further round has to consume a character, so `fuel` equal
to the number of remaining characters is enough. -/
def Re.starFrom (f : Re.Pos → List Re.Pos) : Nat → Re.Pos → List Re.Pos
  | 0, pos => [pos]
  | fuel + 1, pos =>
    pos :: ((f pos).filter (fun q => q.2.length < pos.2.length)).flatMap (Re.starFrom f fuel)

/-- Modelled from the spec: the positions at which a match of the expression that
starts at `pos` can end. -/
def Re.run : Re.Regexp → Re.Pos → List Re.Pos
  | .emptyMatch, pos => [pos]
  | .literal c, pos =>
    match pos.2 with
    | [] => []
    | d :: t => if d = c then [(false, t)] else []
  | .anyCharNotNL, pos =>
    match pos.2 with
    | [] => []
    | d :: t => if d = '\n' then [] else [(false, t)]
  | .beginText, pos => if pos.1 then [pos] else []
  | .endText, pos => if pos.2.isEmpty then [pos] else []
  | .capture a, pos => Re.run a pos
  | .star a, pos => Re.starFrom (Re.run a) pos.2.length pos
  | .plus a, pos => (Re.run a pos).flatMap (fun q => Re.starFrom (Re.run a) q.2.length q)
  | .quest a, pos => pos :: Re.run a pos
  | .concat a b, pos => (Re.run a pos).flatMap (Re.run b)
  | .alternate a b, pos => Re.run a pos ++ Re.run b pos

/-- Modelled from the spec: the positions of the subject at which a match may
start: every position, the first one being the beginning of the text. -/
def Re.positions : Bool → List Char → List Re.Pos
  | b, [] => [(b, [])]
  | b, c :: t => (b, c :: t) :: Re.positions false t

/-- Modelled from the spec: `(*Regexp).MatchString`: the expression finds a match
anywhere within the subject. -/
def Re.MatchString (re : Re.Regexp) (s : String) : Bool :=
  (Re.positions true s.data).any (fun pos => !(Re.run re pos).isEmpty)

/-- Modelled from the spec: the library `regexp` as an instance of `Stdlib`. The
`%q` verb of `fmt` stays a parameter. -/
def specStdlib (quote : String → String) : Stdlib where
  Regexp := Re.Regexp
  Compile := Re.Compile
  MatchString := Re.MatchString
  Quote := quote

/-- The special characters of a regular expression, those that
`regexp.QuoteMeta` escapes. -/
def regexpSpecial (c : Char) : Bool :=
  ['\\', '.', '+', '*', '?', '(', ')', '|', '[', ']', '{', '}', '^', '$'].contains c

/-- Every character of `s` is literal in a regular expression. -/
def regexpLiteral (s : String) : Bool :=
  s.data.all (fun c => !regexpSpecial c)

/-- The characters of `regexp.QuoteMeta(s)`: a backslash before each special
character. -/
def quoteMetaChars : List Char → List Char
  | [] => []
  | c :: cs => if regexpSpecial c then '\\' :: c :: quoteMetaChars cs else c :: quoteMetaChars cs

/-- The expression that matches the text `s` literally (`regexp.QuoteMeta`). -/
def QuoteMeta (s : String) : String :=
  String.mk (quoteMetaChars s.data)

/-! ## Runs that can fail

The definitions above are total functions. To state that a matcher never fails,
the same code is embedded a second time with the failures of a Go run made
explicit: the range check of `p[0]`, an explicit `panic`, and a run that does
not come to an end, which is a run that uses up any number of steps (`fuel`). -/

/-- The ways in which a run can fail to return a value. -/
inductive Fault where
  | indexOutOfRange : Fault
  | panic (msg : String) : Fault
  | outOfFuel : Fault
deriving DecidableEq, Repr

/-- The expression `s[i]` with its range check. -/
def stringIndex (s : String) (i : Nat) : Except Fault Char :=
  match s.data.get? i with
  | some c => .ok c
  | none => .error Fault.indexOutOfRange

/-- The body of `normalizePath` with the range check of `p[0]` explicit: the
right operand of `&&` is evaluated only when `len(p) > 0` holds. -/
def normalizePathRun (p : String) : Except Fault String :=
  if p.length > 0 then
    match stringIndex p 0 with
    | .error e => .error e
    | .ok c => if c != '/' then .ok ("/" ++ p) else .ok p
  else .ok p

/-- A matcher whose call may fail: it is given a number of steps and a URL. -/
abbrev MatcherRun := Nat → URL → Except Fault Bool

/-- `MatchHostname` as a constructor that may fail, returning a matcher that may
fail: the source has no failing operation in either. -/
def MatchHostnameRun (host : String) : Except Fault MatcherRun :=
  .ok (fun _ url => .ok (decide (url.Host = host)))

/-- `MatchPattern` as a constructor that may fail, with the imported matcher as
a parameter that may fail itself. -/
def MatchPatternRunVia (matchFn : Nat → String → String → Except Fault Bool)
    (pattern : String) : Except Fault MatcherRun :=
  .ok (fun fuel url =>
    match normalizePathRun url.Path with
    | .error e => .error e
    | .ok path => matchFn fuel (url.Host ++ path) pattern)

/-- `MatchRegexp` as a constructor that may fail, with the library as
parameters: `regexp.Compile`, a `MatchString` that may fail, and `%q`. -/
def MatchRegexpRunVia {R : Type} (compile : String → Except String R)
    (matchString : Nat → R → String → Except Fault Bool) (quote : String → String)
    (expr : String) : Except Fault MatcherRun :=
  match compile expr with
  | .error err => .error (Fault.panic ("ant: regexp " ++ quote expr ++ " - " ++ err))
  | .ok re =>
    .ok (fun fuel url =>
      match normalizePathRun url.Path with
      | .error e => .error e
      | .ok path => matchString fuel re (url.Host ++ path))

/-- Modelled from the spec: the glob matcher of `Glob.matchChars` as a run by
backtracking that is given `fuel` steps: each call costs one step, and `none`
is a run that did not finish. A `*` first tries the empty run, then gives up one
character of the subject and tries again. -/
def Glob.matchFuel : Nat → List Char → List Char → Option Bool
  | 0, _, _ => none
  | _ + 1, [], s => some s.isEmpty
  | n + 1, c :: p, s =>
    if c = '*' then
      match Glob.matchFuel n p s with
      | none => none
      | some true => some true
      | some false =>
        match s with
        | [] => some false
        | _ :: t => Glob.matchFuel n (c :: p) t
    else
      match s with
      | [] => some false
      | d :: t => if c = '?' ∨ c = d then Glob.matchFuel n p t else some false

/-- Modelled from the spec: `match.Match(str, pattern)` as a run that may fail. -/
def Glob.MatchRun (fuel : Nat) (str pattern : String) : Except Fault Bool :=
  match Glob.matchFuel fuel pattern.data str.data with
  | none => .error Fault.outOfFuel
  | some b => .ok b

/-- `MatchPattern` as a constructor that may fail, on the modelled matcher. -/
def MatchPatternRun (pattern : String) : Except Fault MatcherRun :=
  MatchPatternRunVia Glob.MatchRun pattern

/-- Modelled from the spec: the results of `g` on the positions `xs`, put
together; `none` as soon as one run did not finish. -/
def Re.collect (g : Re.Pos → Option (List Re.Pos)) : List Re.Pos → Option (List Re.Pos)
  | [] => some []
  | x :: xs =>
    match g x with
    | none => none
    | some a =>
      match Re.collect g xs with
      | none => none
      | some b => some (a ++ b)

/-- Modelled from the spec: the matcher of `Re.run` as a run by backtracking that
is given `fuel` steps: each call costs one step, and `none` is a run that did
not finish. The loop of `*` goes on from every position that a round has reached
by consuming a character, for as long as there is one. -/
def Re.runFuel : Nat → Re.Regexp → Re.Pos → Option (List Re.Pos)
  | 0, _, _ => none
  | _ + 1, .emptyMatch, pos => some [pos]
  | _ + 1, .literal c, pos =>
    match pos.2 with
    | [] => some []
    | d :: t => if d = c then some [(false, t)] else some []
  | _ + 1, .anyCharNotNL, pos =>
    match pos.2 with
    | [] => some []
    | d :: t => if d = '\n' then some [] else some [(false, t)]
  | _ + 1, .beginText, pos => if pos.1 then some [pos] else some []
  | _ + 1, .endText, pos => if pos.2.isEmpty then some [pos] else some []
  | n + 1, .capture a, pos => Re.runFuel n a pos
  | n + 1, .star a, pos =>
    match Re.runFuel n a pos with
    | none => none
    | some xs =>
      match Re.collect (Re.runFuel n (.star a))
          (xs.filter (fun q => q.2.length < pos.2.length)) with
      | none => none
      | some ys => some (pos :: ys)
  | n + 1, .plus a, pos =>
    match Re.runFuel n a pos with
    | none => none
    | some xs => Re.collect (Re.runFuel n (.star a)) xs
  | n + 1, .quest a, pos =>
    match Re.runFuel n a pos with
    | none => none
    | some xs => some (pos :: xs)
  | n + 1, .concat a b, pos =>
    match Re.runFuel n a pos with
    | none => none
    | some xs => Re.collect (Re.runFuel n b) xs
  | n + 1, .alternate a b, pos =>
    match Re.runFuel n a pos with
    | none => none
    | some xs =>
      match Re.runFuel n b pos with
      | none => none
      | some ys => some (xs ++ ys)

/-- Modelled from the spec: the search for a start position at which the
expression matches, as a run that may fail. -/
def Re.searchFuel (fuel : Nat) (re : Re.Regexp) : List Re.Pos → Option Bool
  | [] => some false
  | pos :: rest =>
    match Re.runFuel fuel re pos with
    | none => none
    | some [] => Re.searchFuel fuel re rest
    | some (_ :: _) => some true

/-- Modelled from the spec: `(*Regexp).MatchString` as a run that may fail. -/
def Re.MatchStringRun (fuel : Nat) (re : Re.Regexp) (s : String) : Except Fault Bool :=
  match Re.searchFuel fuel re (Re.positions true s.data) with
  | none => .error Fault.outOfFuel
  | some b => .ok b

/-- `MatchRegexp` as a constructor that may fail, on the modelled library. -/
def MatchRegexpRun (quote : String → String) (expr : String) : Except Fault MatcherRun :=
  MatchRegexpRunVia Re.Compile Re.MatchStringRun quote expr

/-- The size of an expression: the number of its operators, `+` counted twice
because it runs its operand and then the loop of `*`. -/
def Re.size : Re.Regexp → Nat
  | .emptyMatch => 1
  | .literal _ => 1
  | .anyCharNotNL => 1
  | .beginText => 1
  | .endText => 1
  | .capture a => Re.size a + 1
  | .star a => Re.size a + 1
  | .plus a => Re.size a + 2
  | .quest a => Re.size a + 1
  | .concat a b => Re.size a + Re.size b + 1
  | .alternate a b => Re.size a + Re.size b + 1

/-! ## Path normalization -/

theorem get_zero_cons (c : Char) (cs : List Char) : (String.mk (c :: cs)).get 0 = c := by
  simp [String.get, String.utf8GetAux]

theorem normalizePath_empty : normalizePath "" = "" := by decide

theorem normalizePath_cons (c : Char) (cs : List Char) :
    normalizePath (String.mk (c :: cs))
      = if c = '/' then String.mk (c :: cs) else String.mk ('/' :: c :: cs) := by
  unfold normalizePath
  rw [get_zero_cons]
  by_cases h : c = '/'
  · simp [h]
  · simp [h, String.length]
    rfl

theorem normalizePath_data (p : String) :
    (normalizePath p).data
      = match p.data with
        | [] => []
        | c :: cs => if c = '/' then c :: cs else '/' :: c :: cs := by
  obtain ⟨l⟩ := p
  cases l with
  | nil => rfl
  | cons c cs =>
    rw [normalizePath_cons]
    by_cases h : c = '/' <;> simp [h]


/-! ## Hostname matcher -/

/-- C1: `MatchHostname h` accepts a URL exactly when its host is the string `h`
itself, with no case folding, port stripping or other normalization: host
`Example.com` and host `example.com:8080` are rejected by
`MatchHostname "example.com"`, and `MatchHostname ""` accepts exactly the URLs
with an empty host. -/
theorem MatchHostname_iff_host_eq :
    (∀ (h : String) (u : URL), (MatchHostname h).Match u = true ↔ u.Host = h)
    ∧ (∀ u : URL, (MatchHostname "example.com").Match { u with Host := "Example.com" } = false)
    ∧ (∀ u : URL,
        (MatchHostname "example.com").Match { u with Host := "example.com:8080" } = false)
    ∧ (∀ u : URL, (MatchHostname "").Match u = true ↔ u.Host = "") := by
  refine ⟨fun h u => by simp [MatcherFunc.Match, MatchHostname], fun u => ?_, fun u => ?_,
    fun u => by simp [MatcherFunc.Match, MatchHostname]⟩
  · show decide (("Example.com" : String) = "example.com") = false
    decide
  · show decide (("example.com:8080" : String) = "example.com") = false
    decide

/-! ## normalizePath -/

/-- C2: `normalizePath p` is `"/"` followed by `p` when `p` is non-empty and
its first character is not `/`, and `p` itself otherwise; so
`normalizePath "" = ""`, `normalizePath "/a" = "/a"`, `normalizePath "a" = "/a"`. -/
theorem normalizePath_spec :
    normalizePath "" = ""
    ∧ (∀ (c : Char) (cs : List Char),
        normalizePath (String.mk (c :: cs))
          = if c = '/' then String.mk (c :: cs) else "/" ++ String.mk (c :: cs))
    ∧ normalizePath "/a" = "/a"
    ∧ normalizePath "a" = "/a" := by
  refine ⟨normalizePath_empty, fun c cs => ?_, by decide, by decide⟩
  rw [normalizePath_cons]
  rfl

/-- C3: `normalizePath` is idempotent. -/
theorem normalizePath_idempotent (p : String) :
    normalizePath (normalizePath p) = normalizePath p := by
  obtain ⟨l⟩ := p
  cases l with
  | nil => decide
  | cons c cs =>
    rw [normalizePath_cons]
    by_cases h : c = '/'
    · simp only [h, if_true]
      rw [normalizePath_cons]
      simp
    · simp only [h, if_false]
      rw [normalizePath_cons]
      simp

/-! ## The normalized subject -/

theorem subject_eq_specSubject (h p : String) : h ++ normalizePath p = specSubject h p := by
  obtain ⟨l⟩ := p
  cases l with
  | nil =>
    apply String.ext
    simp [specSubject, normalizePath_data]
  | cons c cs =>
    apply String.ext
    by_cases hc : c = '/' <;> simp [specSubject, normalizePath_data, hc]

/-- C4: the subject `Host + normalizePath(Path)` handed to the imported matcher
by `MatchPattern`, and to the compiled expression by `MatchRegexp`, is the host
alone when the path is empty, and otherwise the host, one `/`, and the rest of
the path (the path itself if it had no leading slash, else the path without its
first character): the separator is never missing for a non-empty path. -/
theorem subject_is_host_or_host_slash_rest (matchFn : String → String → Bool) (L : Stdlib)
    (pattern expr : String) (u : URL) :
    u.Host ++ normalizePath u.Path = specSubject u.Host u.Path
    ∧ MatchPatternVia matchFn pattern u = matchFn (specSubject u.Host u.Path) pattern
    ∧ MatchPattern pattern u = Glob.Match (specSubject u.Host u.Path) pattern
    ∧ (MatchRegexp L expr).toOption.map (fun f => f.Match u)
        = (L.Compile expr).toOption.map (fun re => L.MatchString re (specSubject u.Host u.Path))
    ∧ (∀ h : String, specSubject h "" = h)
    ∧ (∀ (h : String) (c : Char) (cs : List Char),
        specSubject h (String.mk (c :: cs))
          = h ++ "/" ++ (if c = '/' then String.mk cs else String.mk (c :: cs))) := by
  refine ⟨subject_eq_specSubject _ _, ?_, ?_, ?_, fun h => rfl, fun h c cs => rfl⟩
  · simp only [MatchPatternVia, subject_eq_specSubject]
  · simp only [MatchPattern, MatchPatternVia, subject_eq_specSubject]
  · unfold MatchRegexp
    cases L.Compile expr with
    | error e => rfl
    | ok re => simp [Except.toOption, MatcherFunc.Match, subject_eq_specSubject]

theorem startsWith_slashes_iff (s : String) :
    startsWith s "//" = true ↔ ∃ t : List Char, s.data = '/' :: '/' :: t := by
  obtain ⟨l⟩ := s
  unfold startsWith
  show List.isPrefixOf ['/', '/'] l = true ↔ _
  rw [List.isPrefixOf_iff_prefix]
  constructor
  · rintro ⟨t, ht⟩
    exact ⟨t, by simpa using ht.symm⟩
  · rintro ⟨t, ht⟩
    exact ⟨t, by simpa using ht.symm⟩

/-- C5 fails as stated: the URL with an empty host and path `//x` has the subject
`//x`, which starts with two slashes (the path already starts with `/`, so
`normalizePath` returns it unchanged). -/
theorem subject_double_slash_counterexample :
    startsWith (({ Host := "", Path := "//x" } : URL).Host
      ++ normalizePath ({ Host := "", Path := "//x" } : URL).Path) "//" = true
    ∧ ¬ (∀ u : URL, startsWith (u.Host ++ normalizePath u.Path) "//" = false) := by
  refine ⟨by decide, fun h => ?_⟩
  have := h { Host := "", Path := "//x" }
  revert this
  decide

/-- C5, amended: the subject `Host + normalizePath(Path)` starts with `//`
exactly when the host starts with `//`, or the host is `/` and the path is
non-empty, or the host is empty and the path starts with `//`. -/
theorem subject_double_slash_iff (u : URL) :
    startsWith (u.Host ++ normalizePath u.Path) "//" = true
      ↔ (startsWith u.Host "//" = true
          ∨ (u.Host = "/" ∧ u.Path ≠ "")
          ∨ (u.Host = "" ∧ startsWith u.Path "//" = true)) := by
  obtain ⟨h⟩ := u.Host
  obtain ⟨p⟩ := u.Path
  simp only [startsWith_slashes_iff, String.data_append, normalizePath_data, String.ext_iff]
  have hne : (String.mk p ≠ "") ↔ p ≠ [] := by
    rw [Ne, String.ext_iff]
  rw [hne]
  rcases h with _ | ⟨a, _ | ⟨b, h⟩⟩
  · rcases p with _ | ⟨c, _ | ⟨d, p⟩⟩
    · simp
    · by_cases hc : c = '/' <;> simp [hc]
    · by_cases hc : c = '/' <;> simp [hc]
  · rcases p with _ | ⟨c, p⟩
    · simp
    · by_cases hc : c = '/' <;> simp [hc]
  · simp

/-! ## What the pattern and regexp matchers read -/

/-- C6: the pattern and regexp matchers read the host and the path only: two
URLs with the same `Host` and the same `Path` get the same decision from
`MatchPattern pattern` (whatever the imported matcher computes) and from every
matcher that `MatchRegexp expr` returns, however the URLs differ in scheme,
query, fragment or any other component. -/
theorem matchers_depend_on_host_and_path_only (matchFn : String → String → Bool) (L : Stdlib)
    (pattern expr : String) (u v : URL) (hHost : u.Host = v.Host) (hPath : u.Path = v.Path) :
    (MatchPatternVia matchFn pattern).Match u = (MatchPatternVia matchFn pattern).Match v
    ∧ (MatchPattern pattern).Match u = (MatchPattern pattern).Match v
    ∧ (∀ f : MatcherFunc, MatchRegexp L expr = .ok f → f.Match u = f.Match v) := by
  refine ⟨?_, ?_, fun f hf => ?_⟩
  · simp only [MatcherFunc.Match, MatchPatternVia, hHost, hPath]
  · simp only [MatcherFunc.Match, MatchPattern, MatchPatternVia, hHost, hPath]
  · unfold MatchRegexp at hf
    cases hc : L.Compile expr with
    | error e => rw [hc] at hf; cases hf
    | ok re =>
      rw [hc] at hf
      cases hf
      simp only [MatcherFunc.Match, hHost, hPath]

/-- Witness for C6 at `https://example.com/blog/post1?x=1` and
`http://example.com/blog/post1`, with the spec's glob matcher and a regexp
library that compiles every expression to itself and searches it as a substring
of the subject. -/
theorem matchers_depend_on_host_and_path_only_witness :
    exampleHttps.Host = exampleHttp.Host ∧ exampleHttps.Path = exampleHttp.Path
    ∧ exampleHttps ≠ exampleHttp
    ∧ ((MatchPatternVia Glob.Match "example.com/blog/*").Match exampleHttps
          = (MatchPatternVia Glob.Match "example.com/blog/*").Match exampleHttp
        ∧ (MatchPattern "example.com/blog/*").Match exampleHttps
          = (MatchPattern "example.com/blog/*").Match exampleHttp
        ∧ (∀ f : MatcherFunc, MatchRegexp substringLib "blog" = .ok f →
            f.Match exampleHttps = f.Match exampleHttp)) :=
  ⟨by decide, by decide, by decide,
    matchers_depend_on_host_and_path_only Glob.Match substringLib "example.com/blog/*" "blog"
      exampleHttps exampleHttp (by decide) (by decide)⟩

/-! ## Glob semantics: literals, `*` and `?` -/

theorem matchChars_nil (s : List Char) : Glob.matchChars [] s = true ↔ s = [] := by
  cases s <;> simp [Glob.matchChars]

theorem matchChars_star (p s : List Char) :
    Glob.matchChars ('*' :: p) s = true ↔ ∃ r t, s = r ++ t ∧ Glob.matchChars p t = true := by
  simp only [Glob.matchChars, if_true, List.any_eq_true, List.mem_tails]
  constructor
  · rintro ⟨t, ⟨r, hr⟩, ht⟩
    exact ⟨r, t, hr.symm, ht⟩
  · rintro ⟨r, t, hs, ht⟩
    exact ⟨t, ⟨r, hs.symm⟩, ht⟩

theorem matchChars_any (p s : List Char) :
    Glob.matchChars ('?' :: p) s = true ↔ ∃ d t, s = d :: t ∧ Glob.matchChars p t = true := by
  cases s with
  | nil => simp [Glob.matchChars]
  | cons d t =>
    simp only [Glob.matchChars, decide_True, Bool.true_or, Bool.true_and, List.cons.injEq]
    constructor
    · intro ht
      exact ⟨d, t, ⟨rfl, rfl⟩, ht⟩
    · rintro ⟨d1, t1, ⟨-, rfl⟩, ht⟩
      exact ht

theorem matchChars_char (c : Char) (hs : c ≠ '*') (hq : c ≠ '?') (p s : List Char) :
    Glob.matchChars (c :: p) s = true ↔ ∃ t, s = c :: t ∧ Glob.matchChars p t = true := by
  cases s with
  | nil => simp [Glob.matchChars, hs]
  | cons d t =>
    simp only [Glob.matchChars, hs, hq, if_false, decide_False, Bool.false_or, Bool.and_eq_true,
      decide_eq_true_eq, List.cons.injEq]
    constructor
    · rintro ⟨hcd, ht⟩
      exact ⟨t, ⟨hcd.symm, rfl⟩, ht⟩
    · rintro ⟨t1, ⟨hcd, rfl⟩, ht⟩
      exact ⟨hcd.symm, ht⟩

/-- Every character of the list is literal: the list form of `literal`. -/
theorem literal_cons (c : Char) (cs : List Char) :
    literal (String.mk (c :: cs)) = true
      ↔ (c ≠ '*' ∧ c ≠ '?' ∧ c ≠ '[' ∧ c ≠ ']' ∧ c ≠ '\\') ∧ literal (String.mk cs) = true := by
  simp only [literal, List.all_cons, Bool.and_eq_true, Bool.not_eq_true', Bool.or_eq_false_iff,
    decide_eq_false_iff_not, ne_eq, and_assoc]

theorem matchChars_literal_append (a : List Char) (ha : literal (String.mk a) = true)
    (q s : List Char) :
    Glob.matchChars (a ++ q) s = true ↔ ∃ t, s = a ++ t ∧ Glob.matchChars q t = true := by
  induction a generalizing s with
  | nil => simp
  | cons c cs ih =>
    rw [literal_cons] at ha
    obtain ⟨⟨h1, h2, -⟩, hcs⟩ := ha
    rw [List.cons_append, matchChars_char c h1 h2]
    constructor
    · rintro ⟨t, rfl, ht⟩
      obtain ⟨t1, rfl, ht1⟩ := (ih hcs t).mp ht
      exact ⟨t1, rfl, ht1⟩
    · rintro ⟨t, rfl, ht⟩
      exact ⟨cs ++ t, rfl, (ih hcs _).mpr ⟨t, rfl, ht⟩⟩

theorem matchChars_literal (a : List Char) (ha : literal (String.mk a) = true) (s : List Char) :
    Glob.matchChars a s = true ↔ s = a := by
  have h := matchChars_literal_append a ha [] s
  rw [List.append_nil] at h
  rw [h]
  constructor
  · rintro ⟨t, rfl, ht⟩
    rw [(matchChars_nil t).mp ht, List.append_nil]
  · rintro rfl
    exact ⟨[], by simp, by simp [Glob.matchChars]⟩

theorem matchChars_literal_star (a : List Char) (ha : literal (String.mk a) = true)
    (s : List Char) :
    Glob.matchChars (a ++ ['*']) s = true ↔ a <+: s := by
  rw [matchChars_literal_append a ha]
  constructor
  · rintro ⟨t, rfl, -⟩
    exact List.prefix_append a t
  · rintro ⟨t, rfl⟩
    exact ⟨t, rfl, (matchChars_star [] t).mpr ⟨t, [], by simp, by simp [Glob.matchChars]⟩⟩

theorem matchChars_literal_any (a b : List Char) (ha : literal (String.mk a) = true)
    (hb : literal (String.mk b) = true) (s : List Char) :
    Glob.matchChars (a ++ '?' :: b) s = true ↔ ∃ c : Char, s = a ++ c :: b := by
  rw [matchChars_literal_append a ha]
  constructor
  · rintro ⟨t, rfl, ht⟩
    obtain ⟨d, t1, rfl, ht1⟩ := (matchChars_any b t).mp ht
    rw [(matchChars_literal b hb t1).mp ht1]
    exact ⟨d, rfl⟩
  · rintro ⟨c, rfl⟩
    exact ⟨c :: b, rfl, (matchChars_any b _).mpr ⟨c, b, rfl, (matchChars_literal b hb b).mpr rfl⟩⟩

/-! ## The pattern matcher on literal patterns, `*` and `?` -/

theorem MatchPattern_eq (pattern : String) (u : URL) :
    (MatchPattern pattern).Match u
      = Glob.matchChars pattern.data (u.Host ++ normalizePath u.Path).data := rfl

/-- C7: the pattern matcher is anchored on the whole subject. For a pattern `s`
of literal characters only (none of `*`, `?`, `[`, `]`, backslash),
`MatchPattern s` accepts `u` exactly when `u.Host + normalizePath(u.Path)` is
`s` itself; a subject that holds `s` with anything before or after it is
rejected, as is subject `example.com/blog/post1` by pattern `example.com/blog`. -/
theorem MatchPattern_literal_iff_subject_eq (s : String) (u : URL) (hs : literal s = true) :
    ((MatchPattern s).Match u = true ↔ u.Host ++ normalizePath u.Path = s)
    ∧ (∀ x y : String, (x ≠ "" ∨ y ≠ "") → u.Host ++ normalizePath u.Path = x ++ s ++ y →
        (MatchPattern s).Match u = false)
    ∧ (MatchPattern "example.com/blog").Match { Host := "example.com", Path := "/blog/post1" }
        = false := by
  have hiff : (MatchPattern s).Match u = true ↔ u.Host ++ normalizePath u.Path = s := by
    rw [MatchPattern_eq, matchChars_literal s.data hs, String.ext_iff]
  refine ⟨hiff, fun x y hxy hsub => ?_, by decide⟩
  rw [Bool.eq_false_iff, Ne, hiff, hsub]
  intro heq
  have hlen := congrArg String.length heq
  simp only [String.length_append] at hlen
  have hx : x.length = 0 := by omega
  have hy : y.length = 0 := by omega
  rcases hxy with h | h
  · exact h (String.ext (List.length_eq_zero.mp hx))
  · exact h (String.ext (List.length_eq_zero.mp hy))

/-- Witness for C7: the literal pattern `example.com/blog` on the URL with host
`example.com` and path `blog`. -/
theorem MatchPattern_literal_iff_subject_eq_witness :
    literal "example.com/blog" = true
    ∧ (MatchPattern "example.com/blog").Match { Host := "example.com", Path := "blog" } = true
    ∧ (((MatchPattern "example.com/blog").Match { Host := "example.com", Path := "blog" } = true
          ↔ ({ Host := "example.com", Path := "blog" } : URL).Host
              ++ normalizePath ({ Host := "example.com", Path := "blog" } : URL).Path
            = "example.com/blog")
      ∧ (∀ x y : String, (x ≠ "" ∨ y ≠ "") →
          ({ Host := "example.com", Path := "blog" } : URL).Host
              ++ normalizePath ({ Host := "example.com", Path := "blog" } : URL).Path
            = x ++ "example.com/blog" ++ y →
          (MatchPattern "example.com/blog").Match { Host := "example.com", Path := "blog" }
            = false)
      ∧ (MatchPattern "example.com/blog").Match { Host := "example.com", Path := "/blog/post1" }
          = false) :=
  ⟨by decide, by decide,
    MatchPattern_literal_iff_subject_eq "example.com/blog"
      { Host := "example.com", Path := "blog" } (by decide)⟩

/-- C8: in the pattern matcher `*` matches any run of characters, the empty run
included. For a literal `s`, `MatchPattern (s + "*")` accepts `u` exactly when
the subject `u.Host + normalizePath(u.Path)` starts with `s`. So
`MatchPattern "example.com/blog/*"` accepts the subjects `example.com/blog/post1`
and `example.com/blog/` and rejects `example.com/news/post1` and
`other.com/blog/post1`. -/
theorem MatchPattern_star_iff_startsWith (s : String) (u : URL) (hs : literal s = true) :
    ((MatchPattern (s ++ "*")).Match u = true
        ↔ startsWith (u.Host ++ normalizePath u.Path) s = true)
    ∧ (MatchPattern "example.com/blog/*").Match { Host := "example.com", Path := "/blog/post1" }
        = true
    ∧ (MatchPattern "example.com/blog/*").Match { Host := "example.com", Path := "/blog/" }
        = true
    ∧ (MatchPattern "example.com/blog/*").Match { Host := "example.com", Path := "/news/post1" }
        = false
    ∧ (MatchPattern "example.com/blog/*").Match { Host := "other.com", Path := "/blog/post1" }
        = false := by
  refine ⟨?_, by decide, by decide, by decide, by decide⟩
  rw [MatchPattern_eq, String.data_append]
  show Glob.matchChars (s.data ++ ['*']) _ = true ↔ _
  rw [matchChars_literal_star s.data hs, startsWith, List.isPrefixOf_iff_prefix]

/-- Witness for C8: the literal `example.com/blog/` followed by `*`, on the URL
with host `example.com` and path `/blog/`. -/
theorem MatchPattern_star_iff_startsWith_witness :
    literal "example.com/blog/" = true
    ∧ startsWith (({ Host := "example.com", Path := "/blog/" } : URL).Host
        ++ normalizePath ({ Host := "example.com", Path := "/blog/" } : URL).Path)
        "example.com/blog/" = true
    ∧ ((MatchPattern ("example.com/blog/" ++ "*")).Match
          { Host := "example.com", Path := "/blog/" } = true
        ↔ startsWith (({ Host := "example.com", Path := "/blog/" } : URL).Host
            ++ normalizePath ({ Host := "example.com", Path := "/blog/" } : URL).Path)
            "example.com/blog/" = true) :=
  ⟨by decide, by decide,
    (MatchPattern_star_iff_startsWith "example.com/blog/"
      { Host := "example.com", Path := "/blog/" } (by decide)).1⟩

/-- C9: in the pattern matcher `?` matches exactly one character. For literal
`a` and `b`, `MatchPattern (a + "?" + b)` accepts `u` exactly when the subject
`u.Host + normalizePath(u.Path)` is `a`, one character, then `b`; when the
subject is `a + w + b`, it is accepted exactly when `w` has length one, never
when `w` is empty or has two or more characters. -/
theorem MatchPattern_literal_any_iff_one_char (a b : String) (u : URL)
    (ha : literal a = true) (hb : literal b = true) :
    ((MatchPattern (a ++ "?" ++ b)).Match u = true
        ↔ ∃ c : Char, u.Host ++ normalizePath u.Path = a ++ String.singleton c ++ b)
    ∧ (∀ w : String, u.Host ++ normalizePath u.Path = a ++ w ++ b →
        ((MatchPattern (a ++ "?" ++ b)).Match u = true ↔ w.length = 1)) := by
  have hiff : (MatchPattern (a ++ "?" ++ b)).Match u = true
      ↔ ∃ c : Char, u.Host ++ normalizePath u.Path = a ++ String.singleton c ++ b := by
    rw [MatchPattern_eq, String.data_append, String.data_append]
    show Glob.matchChars (a.data ++ ['?'] ++ b.data) _ = true ↔ _
    rw [List.append_assoc, List.singleton_append, matchChars_literal_any a.data b.data ha hb]
    constructor
    · rintro ⟨c, hc⟩
      refine ⟨c, String.ext ?_⟩
      rw [hc]
      simp [String.singleton]
    · rintro ⟨c, hc⟩
      refine ⟨c, ?_⟩
      rw [hc]
      simp [String.singleton]
  refine ⟨hiff, fun w hw => ?_⟩
  rw [hiff, hw]
  constructor
  · rintro ⟨c, hc⟩
    have hlen := congrArg String.length hc
    simp only [String.length_append, String.singleton, String.length_push] at hlen
    have h0 : "".length = 0 := rfl
    omega
  · intro hlen
    obtain ⟨l⟩ := w
    obtain ⟨c, rfl⟩ := List.length_eq_one.mp hlen
    exact ⟨c, rfl⟩

/-- Witness for C9: pattern `example.com/p?st`, on the URL with host
`example.com` and path `/post`. -/
theorem MatchPattern_literal_any_iff_one_char_witness :
    literal "example.com/p" = true ∧ literal "st" = true
    ∧ (MatchPattern ("example.com/p" ++ "?" ++ "st")).Match
        { Host := "example.com", Path := "/post" } = true
    ∧ ((MatchPattern ("example.com/p" ++ "?" ++ "st")).Match
          { Host := "example.com", Path := "/post" } = true
        ↔ ∃ c : Char, ({ Host := "example.com", Path := "/post" } : URL).Host
            ++ normalizePath ({ Host := "example.com", Path := "/post" } : URL).Path
          = "example.com/p" ++ String.singleton c ++ "st") :=
  ⟨by decide, by decide, by decide,
    (MatchPattern_literal_any_iff_one_char "example.com/p" "st"
      { Host := "example.com", Path := "/post" } (by decide) (by decide)).1⟩

/-! ## Construction of the regexp matcher -/

/-- C11: `MatchRegexp expr` fails at construction exactly when `expr` does not
compile. For every regexp library and every `expr`, the constructor panics (no
matcher is returned) if and only if `regexp.Compile` returns an error; when the
expression compiles the constructor returns the matcher that searches the
compiled expression in the subject, never a constant matcher in its place. On
the modelled library the expression `(`, with its unbalanced parenthesis, makes
the constructor fail. -/
theorem MatchRegexp_fails_iff_compile_fails (L : Stdlib) (expr : String) :
    ((∃ msg, MatchRegexp L expr = .error msg) ↔ ∃ err, L.Compile expr = .error err)
    ∧ ((∃ f, MatchRegexp L expr = .ok f) ↔ ∃ re, L.Compile expr = .ok re)
    ∧ (∀ re, L.Compile expr = .ok re →
        MatchRegexp L expr
          = .ok (fun url => L.MatchString re (url.Host ++ normalizePath url.Path)))
    ∧ (∀ err, L.Compile expr = .error err →
        MatchRegexp L expr = .error ("ant: regexp " ++ L.Quote expr ++ " - " ++ err))
    ∧ (∀ quote : String → String, ∃ msg, MatchRegexp (specStdlib quote) "(" = .error msg)
    ∧ (∀ quote : String → String, ∃ f, MatchRegexp (specStdlib quote) "()" = .ok f) := by
  refine ⟨?_, ?_, ?_, ?_, fun quote => ⟨_, rfl⟩, fun quote => ⟨_, rfl⟩⟩
  · unfold MatchRegexp
    cases L.Compile expr with
    | error e => simp
    | ok re => simp
  · unfold MatchRegexp
    cases L.Compile expr with
    | error e => simp
    | ok re => simp
  · intro re hre
    simp only [MatchRegexp, hre]
  · intro err herr
    simp only [MatchRegexp, herr]

/-! ## The function adapter -/

/-- C15: the function adapter forwards the call unchanged: for every predicate
`f` on URLs and every URL `u`, `MatcherFunc(f).Match(u)` is `f(u)`. -/
theorem MatcherFunc_Match_forwards (f : URL → Bool) (u : URL) :
    MatcherFunc.Match f u = f u := rfl

/-! ## Relative paths -/

theorem normalizePath_of_relative (p : String) (hne : p ≠ "") (hs : startsWith p "/" = false) :
    normalizePath p = "/" ++ p ∧ normalizePath ("/" ++ p) = "/" ++ p := by
  obtain ⟨l⟩ := p
  cases l with
  | nil => exact absurd rfl hne
  | cons c cs =>
    have hc : c ≠ '/' := by
      intro h
      subst h
      simp [startsWith] at hs
    constructor
    · rw [normalizePath_cons]
      simp only [hc, if_false]
      rfl
    · exact normalizePath_cons '/' (c :: cs)

/-- C18: the pattern and regexp matchers cannot tell a relative path from the
same path with a leading slash. If `u` has a non-empty path that does not start
with `/`, and `v` has the same host and the path `"/" + u.Path`, then
`MatchPattern pattern` (whatever the imported matcher computes) and every matcher
returned by `MatchRegexp expr` decide the same on `u` and on `v`. -/
theorem matchers_ignore_missing_leading_slash (matchFn : String → String → Bool) (L : Stdlib)
    (pattern expr : String) (u v : URL) (hHost : v.Host = u.Host)
    (hPath : v.Path = "/" ++ u.Path) (hne : u.Path ≠ "")
    (hrel : startsWith u.Path "/" = false) :
    (MatchPatternVia matchFn pattern).Match u = (MatchPatternVia matchFn pattern).Match v
    ∧ (MatchPattern pattern).Match u = (MatchPattern pattern).Match v
    ∧ (∀ f : MatcherFunc, MatchRegexp L expr = .ok f → f.Match u = f.Match v) := by
  obtain ⟨h1, h2⟩ := normalizePath_of_relative u.Path hne hrel
  refine ⟨?_, ?_, fun f hf => ?_⟩
  · simp only [MatcherFunc.Match, MatchPatternVia, hHost, hPath, h1, h2]
  · simp only [MatcherFunc.Match, MatchPattern, MatchPatternVia, hHost, hPath, h1, h2]
  · unfold MatchRegexp at hf
    cases hc : L.Compile expr with
    | error e => rw [hc] at hf; cases hf
    | ok re =>
      rw [hc] at hf
      cases hf
      simp only [MatcherFunc.Match, hHost, hPath, h1, h2]

/-- Witness for C18: host `example.com` with the paths `blog/post1` and
`/blog/post1`, on the modelled glob matcher and the modelled regexp library. -/
theorem matchers_ignore_missing_leading_slash_witness :
    ({ Host := "example.com", Path := "/blog/post1" } : URL).Host
        = ({ Host := "example.com", Path := "blog/post1" } : URL).Host
    ∧ ({ Host := "example.com", Path := "/blog/post1" } : URL).Path
        = "/" ++ ({ Host := "example.com", Path := "blog/post1" } : URL).Path
    ∧ ({ Host := "example.com", Path := "blog/post1" } : URL).Path ≠ ""
    ∧ startsWith ({ Host := "example.com", Path := "blog/post1" } : URL).Path "/" = false
    ∧ ((MatchPatternVia Glob.Match "example.com/blog/*").Match
            { Host := "example.com", Path := "blog/post1" }
          = (MatchPatternVia Glob.Match "example.com/blog/*").Match
            { Host := "example.com", Path := "/blog/post1" }
        ∧ (MatchPattern "example.com/blog/*").Match
            { Host := "example.com", Path := "blog/post1" }
          = (MatchPattern "example.com/blog/*").Match
            { Host := "example.com", Path := "/blog/post1" }
        ∧ (∀ f : MatcherFunc, MatchRegexp (specStdlib id) "^example\\.com/blog/" = .ok f →
            f.Match { Host := "example.com", Path := "blog/post1" }
              = f.Match { Host := "example.com", Path := "/blog/post1" })) :=
  ⟨by decide, by decide, by decide, by decide,
    matchers_ignore_missing_leading_slash Glob.Match (specStdlib id) "example.com/blog/*"
      "^example\\.com/blog/" { Host := "example.com", Path := "blog/post1" }
      { Host := "example.com", Path := "/blog/post1" } (by decide) (by decide) (by decide)
      (by decide)⟩

/-! ## The modelled regexp library on quoted text -/

theorem regexpSpecial_iff (c : Char) :
    regexpSpecial c = true
      ↔ c = '\\' ∨ c = '.' ∨ c = '+' ∨ c = '*' ∨ c = '?' ∨ c = '(' ∨ c = ')' ∨ c = '|'
        ∨ c = '[' ∨ c = ']' ∨ c = '{' ∨ c = '}' ∨ c = '^' ∨ c = '$' := by
  simp [regexpSpecial]

theorem regexpSpecial_escapable (c : Char) (h : regexpSpecial c = true) :
    (decide (c.toNat < 128) && !c.isAlphanum) = true := by
  rw [regexpSpecial_iff] at h
  rcases h with h | h | h | h | h | h | h | h | h | h | h | h | h | h <;> subst h <;> decide

theorem step_escaped (st : Re.ParseState) (c : Char) (hesc : st.escaped = true)
    (h : regexpSpecial c = true) :
    Re.step st c = .ok (Re.push st (Re.Regexp.literal c)) := by
  have := regexpSpecial_escapable c h
  simp only [Re.step, hesc, if_true, this]

theorem step_plain (st : Re.ParseState) (c : Char) (hesc : st.escaped = false)
    (h : regexpSpecial c = false) :
    Re.step st c = .ok (Re.push st (Re.Regexp.literal c)) := by
  have h1 : ¬ regexpSpecial c = true := by simp [h]
  rw [regexpSpecial_iff] at h1
  simp only [not_or] at h1
  obtain ⟨h1, h2, h3, h4, h5, h6, h7, h8, h9, h10, h11, h12, h13, h14⟩ := h1
  simp only [Re.step, hesc, h1, h2, h3, h4, h5, h6, h7, h8, h9, h11, h13, h14, if_false,
    Bool.false_eq_true]

theorem step_backslash (st : Re.ParseState) (hesc : st.escaped = false) :
    Re.step st '\\' = .ok { st with escaped := true } := by
  simp only [Re.step, hesc, if_true, if_false, Bool.false_eq_true]

/-- Reading the quoted form of `cs` adds the literals of `cs` to the current
concatenation and changes nothing else that the end of the expression looks at. -/
theorem parseLoop_quoteMetaChars (cs : List Char) (st : Re.ParseState)
    (hesc : st.escaped = false) :
    ∃ st1, Re.parseLoop st (quoteMetaChars cs) = .ok st1
      ∧ st1.escaped = false ∧ st1.stack = st.stack ∧ st1.cur.alts = st.cur.alts
      ∧ st1.cur.items = (cs.map Re.Regexp.literal).reverse ++ st.cur.items := by
  induction cs generalizing st with
  | nil => exact ⟨st, rfl, hesc, rfl, rfl, by simp⟩
  | cons c cs ih =>
    obtain ⟨st1, h1, h2, h3, h4, h5⟩ := ih (Re.push st (Re.Regexp.literal c)) rfl
    refine ⟨st1, ?_, h2, h3, h4, ?_⟩
    · by_cases hc : regexpSpecial c = true
      · simp only [quoteMetaChars, hc, if_true, Re.parseLoop, step_backslash st hesc]
        rw [step_escaped _ c rfl hc]
        exact h1
      · have hc1 : regexpSpecial c = false := by simpa using hc
        simp only [quoteMetaChars, hc1, Re.parseLoop, step_plain st c hesc hc1]
        simpa using h1
    · rw [h5]
      simp [Re.push]

theorem Compile_of_parseLoop (expr : String) (st : Re.ParseState)
    (h : Re.parseLoop {} expr.data = .ok st) (hesc : st.escaped = false) (hst : st.stack = [])
    (halts : st.cur.alts = []) :
    Re.Compile expr = .ok (Re.concatOf st.cur.items.reverse) := by
  simp only [Re.Compile, h, Re.finish, hesc, hst, Re.closeFrame, halts, List.isEmpty_nil,
    if_true, if_false, Bool.false_eq_true, List.reverse_singleton, Re.altOf]

theorem Compile_QuoteMeta (s : String) :
    Re.Compile (QuoteMeta s) = .ok (Re.concatOf (s.data.map Re.Regexp.literal)) := by
  obtain ⟨st1, h1, h2, h3, h4, h5⟩ := parseLoop_quoteMetaChars s.data {} rfl
  rw [Compile_of_parseLoop (QuoteMeta s) st1 h1 h2 h3 h4, h5]
  simp

theorem Compile_caret_QuoteMeta (s : String) :
    Re.Compile ("^" ++ QuoteMeta s)
      = .ok (Re.Regexp.concat Re.Regexp.beginText
          (Re.concatOf (s.data.map Re.Regexp.literal))) := by
  obtain ⟨st1, h1, h2, h3, h4, h5⟩ :=
    parseLoop_quoteMetaChars s.data (Re.push {} Re.Regexp.beginText) rfl
  have hloop : Re.parseLoop {} ("^" ++ QuoteMeta s).data = .ok st1 := by
    rw [String.data_append]
    exact h1
  rw [Compile_of_parseLoop _ st1 hloop h2 h3 h4, h5]
  simp [Re.push, Re.concatOf]

theorem quoteMetaChars_of_literal (cs : List Char)
    (h : cs.all (fun c => !regexpSpecial c) = true) : quoteMetaChars cs = cs := by
  induction cs with
  | nil => rfl
  | cons c cs ih =>
    simp only [List.all_cons, Bool.and_eq_true, Bool.not_eq_true'] at h
    simp only [quoteMetaChars, h.1, Bool.false_eq_true, if_false, ih h.2]

theorem QuoteMeta_of_regexpLiteral (s : String) (h : regexpLiteral s = true) :
    QuoteMeta s = s := by
  apply String.ext
  exact quoteMetaChars_of_literal s.data h

/-! ## Matching a concatenation of literals -/

theorem run_literals (s : List Char) (pos : Re.Pos) :
    (Re.run (Re.concatOf (s.map Re.Regexp.literal)) pos).isEmpty = !s.isPrefixOf pos.2 := by
  induction s generalizing pos with
  | nil => simp [Re.concatOf, Re.run]
  | cons c s ih =>
    obtain ⟨b, r⟩ := pos
    cases r with
    | nil => simp [Re.concatOf, Re.run]
    | cons d t =>
      have ih1 := ih (false, t)
      simp only [Re.concatOf] at ih1
      by_cases hdc : d = c
      · subst hdc
        simp [Re.concatOf, Re.run, ih1]
      · have hcd : ¬ c = d := fun h => hdc h.symm
        simp [Re.concatOf, Re.run, hdc, hcd, List.isPrefixOf]

theorem positions_any (P : List Char → Bool) (b : Bool) (l : List Char) :
    (Re.positions b l).any (fun pos => P pos.2) = l.tails.any P := by
  induction l generalizing b with
  | nil => simp [Re.positions]
  | cons c t ih => simp [Re.positions, ih]

theorem MatchString_literals (s : List Char) (subj : String) :
    Re.MatchString (Re.concatOf (s.map Re.Regexp.literal)) subj
      = subj.data.tails.any (fun t => s.isPrefixOf t) := by
  simp only [Re.MatchString, run_literals, Bool.not_not]
  exact positions_any (fun t => s.isPrefixOf t) true subj.data

theorem tails_any_isPrefixOf_iff (s l : List Char) :
    l.tails.any (fun t => s.isPrefixOf t) = true ↔ ∃ a b : List Char, l = a ++ s ++ b := by
  simp only [List.any_eq_true, List.mem_tails, List.isPrefixOf_iff_prefix]
  constructor
  · rintro ⟨t, ⟨a, rfl⟩, ⟨b, rfl⟩⟩
    exact ⟨a, b, by simp⟩
  · rintro ⟨a, b, rfl⟩
    exact ⟨s ++ b, ⟨a, by simp⟩, ⟨b, rfl⟩⟩

theorem positions_false_beginText (R : Re.Regexp) (l : List Char) :
    (Re.positions false l).any
      (fun pos => !(Re.run (Re.Regexp.concat Re.Regexp.beginText R) pos).isEmpty) = false := by
  induction l with
  | nil => simp [Re.positions, Re.run]
  | cons c t ih => 
    simp only [Re.positions, List.any_cons, ih, Bool.or_false]
    simp [Re.run]

theorem MatchString_caret_literals (s : List Char) (subj : String) :
    Re.MatchString
        (Re.Regexp.concat Re.Regexp.beginText (Re.concatOf (s.map Re.Regexp.literal))) subj
      = s.isPrefixOf subj.data := by
  obtain ⟨l⟩ := subj
  have hrun : ∀ r : List Char,
      (Re.run (Re.Regexp.concat Re.Regexp.beginText (Re.concatOf (s.map Re.Regexp.literal)))
        (true, r)).isEmpty = !s.isPrefixOf r := by
    intro r
    have := run_literals s (true, r)
    simpa [Re.run] using this
  cases l with
  | nil => simp [Re.MatchString, Re.positions, hrun]
  | cons c t =>
    simp only [Re.MatchString, Re.positions, List.any_cons, positions_false_beginText,
      Bool.or_false, hrun, Bool.not_not]

/-! ## The regexp matcher on literal expressions and on `^` -/

theorem MatchRegexp_spec_ok (quote : String → String) (expr : String) (re : Re.Regexp)
    (h : Re.Compile expr = .ok re) :
    MatchRegexp (specStdlib quote) expr
      = .ok (fun url => Re.MatchString re (url.Host ++ normalizePath url.Path)) := by
  simp only [MatchRegexp, specStdlib, h]

/-- C12: the regexp matcher searches the subject for a match anywhere. For an
expression `s` of literal characters only (none of the special characters of a
regular expression), `MatchRegexp s` returns a matcher, and it accepts `u`
exactly when the subject `u.Host + normalizePath(u.Path)` contains `s` as a
substring. So `MatchRegexp "blog"` accepts the subject
`example.com/my-blog-page`. -/
theorem MatchRegexp_literal_iff_contains (quote : String → String) (s : String) (u : URL)
    (hs : regexpLiteral s = true) :
    (∃ f : MatcherFunc, MatchRegexp (specStdlib quote) s = .ok f
        ∧ (f.Match u = true ↔ ∃ a b : String, u.Host ++ normalizePath u.Path = a ++ s ++ b))
    ∧ (MatchRegexp (specStdlib quote) "blog").toOption.map
          (fun f => f.Match { Host := "example.com", Path := "/my-blog-page" })
        = some true := by
  refine ⟨?_, rfl⟩
  have hc : Re.Compile s = .ok (Re.concatOf (s.data.map Re.Regexp.literal)) := by
    have := Compile_QuoteMeta s
    rwa [QuoteMeta_of_regexpLiteral s hs] at this
  refine ⟨_, MatchRegexp_spec_ok quote s _ hc, ?_⟩
  simp only [MatcherFunc.Match]
  rw [MatchString_literals, tails_any_isPrefixOf_iff]
  constructor
  · rintro ⟨a, b, hab⟩
    exact ⟨String.mk a, String.mk b, String.ext (by simpa using hab)⟩
  · rintro ⟨a, b, hab⟩
    exact ⟨a.data, b.data, by rw [hab]; simp⟩

/-- Witness for C12: the literal expression `blog` on the URL with host
`example.com` and path `/my-blog-page`. -/
theorem MatchRegexp_literal_iff_contains_witness :
    regexpLiteral "blog" = true
    ∧ (({ Host := "example.com", Path := "/my-blog-page" } : URL).Host
        ++ normalizePath ({ Host := "example.com", Path := "/my-blog-page" } : URL).Path
        = "example.com/my-" ++ "blog" ++ "-page")
    ∧ (∃ f : MatcherFunc, MatchRegexp (specStdlib id) "blog" = .ok f
        ∧ (f.Match { Host := "example.com", Path := "/my-blog-page" } = true
            ↔ ∃ a b : String,
                ({ Host := "example.com", Path := "/my-blog-page" } : URL).Host
                  ++ normalizePath ({ Host := "example.com", Path := "/my-blog-page" } : URL).Path
                = a ++ "blog" ++ b)) :=
  ⟨by decide, by decide,
    (MatchRegexp_literal_iff_contains id "blog"
      { Host := "example.com", Path := "/my-blog-page" } (by decide)).1⟩

/-- C13: an explicit `^` makes the regexp matcher a test on the beginning of the
subject. For every text `s`, the expression `^` followed by `s` with its special
characters escaped compiles, and its matcher accepts `u` exactly when the subject
`u.Host + normalizePath(u.Path)` starts with `s`. So
`MatchRegexp "^example\\.com/blog/"` accepts the subject `example.com/blog/post1`
and rejects `example.com/news/post1`. -/
theorem MatchRegexp_caret_iff_startsWith (quote : String → String) (s : String) (u : URL) :
    (∃ f : MatcherFunc, MatchRegexp (specStdlib quote) ("^" ++ QuoteMeta s) = .ok f
        ∧ (f.Match u = true ↔ startsWith (u.Host ++ normalizePath u.Path) s = true))
    ∧ "^" ++ QuoteMeta "example.com/blog/" = "^example\\.com/blog/"
    ∧ (MatchRegexp (specStdlib quote) "^example\\.com/blog/").toOption.map
          (fun f => f.Match { Host := "example.com", Path := "/blog/post1" })
        = some true
    ∧ (MatchRegexp (specStdlib quote) "^example\\.com/blog/").toOption.map
          (fun f => f.Match { Host := "example.com", Path := "/news/post1" })
        = some false := by
  refine ⟨?_, by decide, rfl, rfl⟩
  refine ⟨_, MatchRegexp_spec_ok quote _ _ (Compile_caret_QuoteMeta s), ?_⟩
  simp only [MatcherFunc.Match]
  rw [MatchString_caret_literals, startsWith]

/-- C14: on the same source string the pattern matcher is the stricter of the
two. For a string `s` whose characters are literal both in a glob pattern and in
a regular expression, whenever `MatchPattern s` accepts `u` the matcher of
`MatchRegexp s` accepts `u` too. The converse fails: on the subject
`example.com/my-blog-page` the matcher of `MatchRegexp "blog"` accepts and
`MatchPattern "blog"` rejects. -/
theorem MatchPattern_implies_MatchRegexp (quote : String → String) (s : String) (u : URL)
    (hg : literal s = true) (hr : regexpLiteral s = true) :
    ((MatchPattern s).Match u = true →
        ∃ f : MatcherFunc, MatchRegexp (specStdlib quote) s = .ok f ∧ f.Match u = true)
    ∧ ((MatchRegexp (specStdlib quote) "blog").toOption.map
            (fun f => f.Match { Host := "example.com", Path := "/my-blog-page" })
          = some true
        ∧ (MatchPattern "blog").Match { Host := "example.com", Path := "/my-blog-page" }
          = false) := by
  refine ⟨fun hm => ?_, rfl, by decide⟩
  have hc : Re.Compile s = .ok (Re.concatOf (s.data.map Re.Regexp.literal)) := by
    have := Compile_QuoteMeta s
    rwa [QuoteMeta_of_regexpLiteral s hr] at this
  refine ⟨_, MatchRegexp_spec_ok quote s _ hc, ?_⟩
  rw [MatchPattern_eq, matchChars_literal s.data hg] at hm
  simp only [MatcherFunc.Match]
  rw [MatchString_literals, tails_any_isPrefixOf_iff, hm]
  exact ⟨[], [], by simp⟩

/-- Witness for C14: the string `example/blog`, literal in both syntaxes, on the
URL with host `example` and path `blog`, which `MatchPattern` accepts. -/
theorem MatchPattern_implies_MatchRegexp_witness :
    regexpLiteral "example/blog" = true
    ∧ literal "example/blog" = true
    ∧ (MatchPattern "example/blog").Match { Host := "example", Path := "blog" } = true
    ∧ ∃ f : MatcherFunc, MatchRegexp (specStdlib id) "example/blog" = .ok f
        ∧ f.Match { Host := "example", Path := "blog" } = true :=
  ⟨by decide, by decide, by decide,
    (MatchPattern_implies_MatchRegexp id "example/blog" { Host := "example", Path := "blog" }
      (by decide) (by decide)).1 (by decide)⟩

/-! ## A bare-host pattern and the hostname matcher -/

/-- C19: a bare-host pattern agrees with the hostname matcher only on URLs with
an empty path. For a literal `h`: on a URL whose path is empty `MatchPattern h`
and `MatchHostname h` decide the same; on a URL whose path is non-empty and
whose host is `h`, `MatchPattern h` rejects although `MatchHostname h` accepts,
as on host `example.com` with path `/`. -/
theorem MatchPattern_bare_host_vs_MatchHostname (h : String) (u : URL)
    (hl : literal h = true) :
    (u.Path = "" → (MatchPattern h).Match u = (MatchHostname h).Match u)
    ∧ (u.Path ≠ "" → u.Host = h →
        (MatchPattern h).Match u = false ∧ (MatchHostname h).Match u = true)
    ∧ ((MatchPattern "example.com").Match { Host := "example.com", Path := "/" } = false
        ∧ (MatchHostname "example.com").Match { Host := "example.com", Path := "/" } = true) := by
  have hiff : (MatchPattern h).Match u = true ↔ u.Host ++ normalizePath u.Path = h := by
    rw [MatchPattern_eq, matchChars_literal h.data hl, String.ext_iff]
  refine ⟨fun hp => ?_, fun hp hh => ⟨?_, ?_⟩, by decide, by decide⟩
  · rw [Bool.eq_iff_iff, hiff, hp, normalizePath_empty]
    simp [MatcherFunc.Match, MatchHostname]
  · rw [Bool.eq_false_iff, Ne, hiff, hh]
    intro heq
    have hlen := congrArg String.length heq
    simp only [String.length_append] at hlen
    have h0 : (normalizePath u.Path).data = [] := List.length_eq_zero.mp (by
      show (normalizePath u.Path).length = 0
      omega)
    rw [normalizePath_data] at h0
    have hd : u.Path.data ≠ [] := fun hd => hp (String.ext hd)
    cases hpd : u.Path.data with
    | nil => exact hd hpd
    | cons c cs =>
      rw [hpd] at h0
      by_cases hc : c = '/' <;> simp [hc] at h0
  · simp [MatcherFunc.Match, MatchHostname, hh]

/-- Witness for C19: the literal host `example.com`, on a URL with that host and
an empty path and on the same host with path `/blog`. -/
theorem MatchPattern_bare_host_vs_MatchHostname_witness :
    literal "example.com" = true
    ∧ ({ Host := "example.com", Path := "/blog" } : URL).Path ≠ ""
    ∧ ({ Host := "example.com", Path := "/blog" } : URL).Host = "example.com"
    ∧ ((MatchPattern "example.com").Match { Host := "example.com", Path := "/blog" } = false
        ∧ (MatchHostname "example.com").Match { Host := "example.com", Path := "/blog" } = true)
    ∧ (MatchPattern "example.com").Match { Host := "example.com", Path := "" }
        = (MatchHostname "example.com").Match { Host := "example.com", Path := "" } :=
  ⟨by decide, by decide, by decide,
    (MatchPattern_bare_host_vs_MatchHostname "example.com"
      { Host := "example.com", Path := "/blog" } (by decide)).2.1 (by decide) (by decide),
    (MatchPattern_bare_host_vs_MatchHostname "example.com"
      { Host := "example.com", Path := "" } (by decide)).1 (by decide)⟩


/-! ## Runs that can fail: the glob matcher -/

theorem normalizePathRun_eq (p : String) : normalizePathRun p = .ok (normalizePath p) := by
  obtain ⟨l⟩ := p
  cases l with
  | nil => rfl
  | cons c cs =>
    rw [normalizePath_cons]
    by_cases hc : c = '/'
    · simp [normalizePathRun, stringIndex, String.length, hc]
    · simp [normalizePathRun, stringIndex, String.length, hc]
      rfl

theorem matchChars_star_cons (p : List Char) (d : Char) (t : List Char) :
    Glob.matchChars ('*' :: p) (d :: t)
      = (Glob.matchChars p (d :: t) || Glob.matchChars ('*' :: p) t) := by
  simp [Glob.matchChars]

theorem matchChars_star_nil (p : List Char) :
    Glob.matchChars ('*' :: p) [] = Glob.matchChars p [] := by
  simp [Glob.matchChars]

/-- The backtracking run of the glob matcher finishes within
`len(pattern) + len(subject) + 1` nested calls and returns what `Glob.matchChars`
defines. -/
theorem matchFuel_eq (n : Nat) (p s : List Char) (h : p.length + s.length < n) :
    Glob.matchFuel n p s = some (Glob.matchChars p s) := by
  induction n generalizing p s with
  | zero => omega
  | succ n ih =>
    cases p with
    | nil => simp [Glob.matchFuel, Glob.matchChars]
    | cons c p =>
      simp only [List.length_cons] at h
      by_cases hc : c = '*'
      · subst hc
        cases s with
        | nil =>
          have h1 := ih p [] (by simp only [List.length_nil]; omega)
          rw [matchChars_star_nil]
          cases hb : Glob.matchChars p [] <;> simp [Glob.matchFuel, h1, hb]
        | cons d t =>
          simp only [List.length_cons] at h
          have h1 := ih p (d :: t) (by simp only [List.length_cons]; omega)
          have h2 := ih ('*' :: p) t (by simp only [List.length_cons]; omega)
          rw [matchChars_star_cons]
          cases hb : Glob.matchChars p (d :: t) <;> simp [Glob.matchFuel, h1, h2, hb]
      · cases s with
        | nil => simp [Glob.matchFuel, Glob.matchChars, hc]
        | cons d t =>
          simp only [List.length_cons] at h
          have h1 := ih p t (by omega)
          by_cases hm : c = '?' ∨ c = d
          · have hb : (decide (c = '?') || decide (c = d)) = true := by simpa using hm
            simp [Glob.matchFuel, Glob.matchChars, hc, hm, h1, hb]
          · have hb : (decide (c = '?') || decide (c = d)) = false := by simpa using hm
            simp [Glob.matchFuel, Glob.matchChars, hc, hm, hb]

/-! ## Runs that can fail: the regexp matcher -/

theorem flatMap_congr_mem {α β : Type} (l : List α) (f g : α → List β)
    (h : ∀ x ∈ l, f x = g x) : l.flatMap f = l.flatMap g := by
  induction l with
  | nil => rfl
  | cons x xs ih =>
    simp only [List.flatMap_cons]
    rw [h x (List.mem_cons_self x xs), ih (fun y hy => h y (List.mem_cons_of_mem x hy))]

theorem collect_eq (g : Re.Pos → Option (List Re.Pos)) (f : Re.Pos → List Re.Pos)
    (xs : List Re.Pos) (h : ∀ x ∈ xs, g x = some (f x)) :
    Re.collect g xs = some (xs.flatMap f) := by
  induction xs with
  | nil => rfl
  | cons x xs ih =>
    simp only [Re.collect, h x (List.mem_cons_self x xs),
      ih (fun y hy => h y (List.mem_cons_of_mem x hy)), List.flatMap_cons]

theorem starFrom_succ (f : Re.Pos → List Re.Pos) (k : Nat) (pos : Re.Pos)
    (h : pos.2.length ≤ k) : Re.starFrom f (k + 1) pos = Re.starFrom f k pos := by
  induction k generalizing pos with
  | zero =>
    have h0 : ∀ q : Re.Pos, ¬ q.2.length < pos.2.length := fun q => by omega
    simp [Re.starFrom, h0]
  | succ k ih =>
    rw [Re.starFrom, Re.starFrom]
    congr 1
    apply flatMap_congr_mem
    intro q hq
    have hq1 := (List.mem_filter.mp hq).2
    simp only [decide_eq_true_eq] at hq1
    exact ih q (by omega)

theorem starFrom_of_le (f : Re.Pos → List Re.Pos) (k : Nat) (pos : Re.Pos)
    (h : pos.2.length ≤ k) : Re.starFrom f k pos = Re.starFrom f pos.2.length pos := by
  induction k with
  | zero =>
    have h0 : pos.2.length = 0 := by omega
    rw [h0]
  | succ k ih =>
    by_cases hk : pos.2.length ≤ k
    · rw [starFrom_succ f k pos hk, ih hk]
    · have : pos.2.length = k + 1 := by omega
      rw [this]

/-- The loop of `*` unfolded once. -/
theorem run_star_unfold (a : Re.Regexp) (pos : Re.Pos) :
    Re.run (.star a) pos
      = pos :: ((Re.run a pos).filter (fun q => q.2.length < pos.2.length)).flatMap
          (Re.run (.star a)) := by
  show Re.starFrom (Re.run a) pos.2.length pos = _
  cases hk : pos.2.length with
  | zero =>
    have h0 : ∀ q : Re.Pos, ¬ q.2.length < 0 := fun q => by omega
    simp [Re.starFrom, h0]
  | succ k =>
    rw [Re.starFrom, hk]
    congr 1
    apply flatMap_congr_mem
    intro q hq
    have hq1 := (List.mem_filter.mp hq).2
    simp only [decide_eq_true_eq] at hq1
    show Re.starFrom (Re.run a) k q = Re.starFrom (Re.run a) q.2.length q
    exact starFrom_of_le (Re.run a) k q (by omega)

theorem starFrom_length_le (f : Re.Pos → List Re.Pos) (k : Nat) (pos q : Re.Pos)
    (hq : q ∈ Re.starFrom f k pos) : q.2.length ≤ pos.2.length := by
  induction k generalizing pos with
  | zero =>
    simp only [Re.starFrom, List.mem_singleton] at hq
    rw [hq]
  | succ k ih =>
    simp only [Re.starFrom, List.mem_cons, List.mem_flatMap, List.mem_filter,
      decide_eq_true_eq] at hq
    rcases hq with hq | ⟨x, ⟨-, hx⟩, hqx⟩
    · rw [hq]
    · have := ih x hqx
      omega

/-- A match never ends before the position where it starts. -/
theorem run_length_le (r : Re.Regexp) (pos q : Re.Pos) (hq : q ∈ Re.run r pos) :
    q.2.length ≤ pos.2.length := by
  induction r generalizing pos q with
  | emptyMatch =>
    simp only [Re.run, List.mem_singleton] at hq
    rw [hq]
  | literal c =>
    obtain ⟨b, l⟩ := pos
    cases l with
    | nil => simp [Re.run] at hq
    | cons d t =>
      by_cases hd : d = c
      · simp [Re.run, hd] at hq
        rw [hq]
        simp
      · simp [Re.run, hd] at hq
  | anyCharNotNL =>
    obtain ⟨b, l⟩ := pos
    cases l with
    | nil => simp [Re.run] at hq
    | cons d t =>
      by_cases hd : d = '\n'
      · simp [Re.run, hd] at hq
      · simp [Re.run, hd] at hq
        rw [hq]
        simp
  | beginText =>
    by_cases hb : pos.1 = true
    · simp [Re.run, hb] at hq
      rw [hq]
    · simp [Re.run, hb] at hq
  | endText =>
    by_cases hb : pos.2.isEmpty = true
    · simp only [Re.run, hb, if_true, List.mem_singleton] at hq
      rw [hq]
    · simp [Re.run, hb] at hq
  | capture a ih => exact ih pos q hq
  | star a _ => exact starFrom_length_le (Re.run a) _ pos q hq
  | plus a ih =>
    simp only [Re.run, List.mem_flatMap] at hq
    obtain ⟨x, hx, hqx⟩ := hq
    have h1 := ih pos x hx
    have h2 := starFrom_length_le (Re.run a) _ x q hqx
    omega
  | quest a ih =>
    simp only [Re.run, List.mem_cons] at hq
    rcases hq with hq | hq
    · rw [hq]
    · exact ih pos q hq
  | concat a b iha ihb =>
    simp only [Re.run, List.mem_flatMap] at hq
    obtain ⟨x, hx, hqx⟩ := hq
    have h1 := iha pos x hx
    have h2 := ihb x q hqx
    omega
  | alternate a b iha ihb =>
    simp only [Re.run, List.mem_append] at hq
    rcases hq with hq | hq
    · exact iha pos q hq
    · exact ihb pos q hq

theorem size_pos (r : Re.Regexp) : 0 < Re.size r := by
  cases r <;> simp [Re.size]

theorem bound_mono (s k1 k2 : Nat) (h : k1 ≤ k2) : s * (k1 + 1) ≤ s * (k2 + 1) :=
  Nat.mul_le_mul_left s (by omega)

/-- The loop of `*` finishes, given that the run of its operand does. -/
theorem runFuel_star (a : Re.Regexp)
    (iha : ∀ (n : Nat) (pos : Re.Pos), Re.size a * (pos.2.length + 1) ≤ n →
      Re.runFuel n a pos = some (Re.run a pos))
    (k : Nat) :
    ∀ (n : Nat) (pos : Re.Pos), pos.2.length ≤ k →
      (Re.size a + 1) * (pos.2.length + 1) ≤ n →
      Re.runFuel n (.star a) pos = some (Re.run (.star a) pos) := by
  induction k with
  | zero =>
    intro n pos hk hn
    have h0 : pos.2.length = 0 := by omega
    rw [h0] at hn
    cases n with
    | zero => omega
    | succ m =>
      have ha := iha m pos (by rw [h0]; omega)
      have hf : ∀ q : Re.Pos, ¬ q.2.length < pos.2.length := fun q => by omega
      rw [run_star_unfold]
      simp [Re.runFuel, ha, hf, Re.collect]
  | succ k ih =>
    intro n pos hk hn
    cases n with
    | zero =>
      have := size_pos a
      simp at hn
    | succ m =>
      have hexp : (Re.size a + 1) * (pos.2.length + 1)
          = Re.size a * (pos.2.length + 1) + (pos.2.length + 1) := by ring
      have ha := iha m pos (by omega)
      have hcol := collect_eq (Re.runFuel m (.star a)) (Re.run (.star a))
        ((Re.run a pos).filter (fun q => q.2.length < pos.2.length)) (by
          intro q hq
          have hq1 := (List.mem_filter.mp hq).2
          simp only [decide_eq_true_eq] at hq1
          apply ih m q (by omega)
          have h1 : (Re.size a + 1) * (q.2.length + 1) ≤ (Re.size a + 1) * pos.2.length :=
            Nat.mul_le_mul_left _ (by omega)
          have h2 : (Re.size a + 1) * (pos.2.length + 1)
              = (Re.size a + 1) * pos.2.length + (Re.size a + 1) := by ring
          omega)
      rw [run_star_unfold]
      simp only [Re.runFuel, ha, hcol]

/-- The backtracking run of the regexp matcher finishes within
`size(re) * (len(rest) + 1)` nested calls and returns what `Re.run` defines. -/
theorem runFuel_eq (r : Re.Regexp) :
    ∀ (n : Nat) (pos : Re.Pos), Re.size r * (pos.2.length + 1) ≤ n →
      Re.runFuel n r pos = some (Re.run r pos) := by
  induction r with
  | emptyMatch =>
    intro n pos hn
    cases n with
    | zero => simp [Re.size] at hn
    | succ m => simp [Re.runFuel, Re.run]
  | literal c =>
    intro n pos hn
    cases n with
    | zero => simp [Re.size] at hn
    | succ m =>
      obtain ⟨b, l⟩ := pos
      cases l with
      | nil => simp [Re.runFuel, Re.run]
      | cons d t => by_cases hd : d = c <;> simp [Re.runFuel, Re.run, hd]
  | anyCharNotNL =>
    intro n pos hn
    cases n with
    | zero => simp [Re.size] at hn
    | succ m =>
      obtain ⟨b, l⟩ := pos
      cases l with
      | nil => simp [Re.runFuel, Re.run]
      | cons d t => by_cases hd : d = '\n' <;> simp [Re.runFuel, Re.run, hd]
  | beginText =>
    intro n pos hn
    cases n with
    | zero => simp [Re.size] at hn
    | succ m => by_cases hb : pos.1 = true <;> simp [Re.runFuel, Re.run, hb]
  | endText =>
    intro n pos hn
    cases n with
    | zero => simp [Re.size] at hn
    | succ m => by_cases hb : pos.2.isEmpty = true <;> simp [Re.runFuel, Re.run, hb]
  | capture a ih =>
    intro n pos hn
    simp only [Re.size] at hn
    cases n with
    | zero => simp at hn
    | succ m =>
      have hexp : (Re.size a + 1) * (pos.2.length + 1)
          = Re.size a * (pos.2.length + 1) + (pos.2.length + 1) := by ring
      simp only [Re.runFuel, Re.run]
      exact ih m pos (by omega)
  | star a ih =>
    intro n pos hn
    exact runFuel_star a ih pos.2.length n pos (Nat.le_refl _) hn
  | plus a ih =>
    intro n pos hn
    simp only [Re.size] at hn
    cases n with
    | zero => simp at hn
    | succ m =>
      have hexp : (Re.size a + 2) * (pos.2.length + 1)
          = (Re.size a + 1) * (pos.2.length + 1) + (pos.2.length + 1) := by ring
      have hexp2 : (Re.size a + 1) * (pos.2.length + 1)
          = Re.size a * (pos.2.length + 1) + (pos.2.length + 1) := by ring
      have ha := ih m pos (by omega)
      have hcol := collect_eq (Re.runFuel m (.star a)) (Re.run (.star a)) (Re.run a pos) (by
        intro q hq
        have hle := run_length_le a pos q hq
        apply runFuel_star a ih q.2.length m q (Nat.le_refl _)
        have := bound_mono (Re.size a + 1) _ _ hle
        omega)
      simp only [Re.runFuel, ha, hcol]
      rfl
  | quest a ih =>
    intro n pos hn
    simp only [Re.size] at hn
    cases n with
    | zero => simp at hn
    | succ m =>
      have hexp : (Re.size a + 1) * (pos.2.length + 1)
          = Re.size a * (pos.2.length + 1) + (pos.2.length + 1) := by ring
      have ha := ih m pos (by omega)
      simp only [Re.runFuel, ha, Re.run]
  | concat a b iha ihb =>
    intro n pos hn
    simp only [Re.size] at hn
    cases n with
    | zero => simp at hn
    | succ m =>
      have hexp : (Re.size a + Re.size b + 1) * (pos.2.length + 1)
          = Re.size a * (pos.2.length + 1) + Re.size b * (pos.2.length + 1)
            + (pos.2.length + 1) := by ring
      have ha := iha m pos (by omega)
      have hcol := collect_eq (Re.runFuel m b) (Re.run b) (Re.run a pos) (by
        intro q hq
        have hle := run_length_le a pos q hq
        apply ihb m q
        have := bound_mono (Re.size b) _ _ hle
        omega)
      simp only [Re.runFuel, ha, hcol, Re.run]
  | alternate a b iha ihb =>
    intro n pos hn
    simp only [Re.size] at hn
    cases n with
    | zero => simp at hn
    | succ m =>
      have hexp : (Re.size a + Re.size b + 1) * (pos.2.length + 1)
          = Re.size a * (pos.2.length + 1) + Re.size b * (pos.2.length + 1)
            + (pos.2.length + 1) := by ring
      have ha := iha m pos (by omega)
      have hb := ihb m pos (by omega)
      simp only [Re.runFuel, ha, hb, Re.run]

theorem positions_length_le (b : Bool) (l : List Char) (pos : Re.Pos)
    (h : pos ∈ Re.positions b l) : pos.2.length ≤ l.length := by
  induction l generalizing b with
  | nil =>
    simp only [Re.positions, List.mem_singleton] at h
    rw [h]
  | cons c t ih =>
    simp only [Re.positions, List.mem_cons] at h
    rcases h with h | h
    · rw [h]
    · have := ih false h
      simp only [List.length_cons]
      omega

theorem searchFuel_eq (fuel : Nat) (re : Re.Regexp) (ps : List Re.Pos)
    (h : ∀ pos ∈ ps, Re.runFuel fuel re pos = some (Re.run re pos)) :
    Re.searchFuel fuel re ps = some (ps.any (fun pos => !(Re.run re pos).isEmpty)) := by
  induction ps with
  | nil => rfl
  | cons p ps ih =>
    have hp := h p (List.mem_cons_self p ps)
    have ih1 := ih (fun q hq => h q (List.mem_cons_of_mem p hq))
    cases hr : Re.run re p with
    | nil => simp [Re.searchFuel, hp, hr, ih1]
    | cons x xs => simp [Re.searchFuel, hp, hr]

/-- The search of the regexp matcher finishes within `size(re) * (len(s) + 1)`
nested calls and returns what `Re.MatchString` defines. -/
theorem MatchStringRun_eq (fuel : Nat) (re : Re.Regexp) (s : String)
    (h : Re.size re * (s.length + 1) ≤ fuel) :
    Re.MatchStringRun fuel re s = .ok (Re.MatchString re s) := by
  have hs := searchFuel_eq fuel re (Re.positions true s.data) (by
    intro pos hpos
    apply runFuel_eq re fuel pos
    have hle := positions_length_le true s.data pos hpos
    have := bound_mono (Re.size re) _ _ hle
    exact Nat.le_trans this h)
  simp only [Re.MatchStringRun, hs, Re.MatchString]

/-! ## Totality -/

/-- C16: matching never fails. In the embedding where a run can fail (a range
check, a panic, a run that does not end): `normalizePath` never fails its range
check; `MatchPattern` constructs a matcher for every pattern, and a call of it
fails only where the imported matcher does; on the modelled matcher, for every
pattern and every URL, the call ends within `len(pattern) + len(subject) + 1`
nested calls and returns the boolean of `MatchPattern`, also for patterns with
an unbalanced bracket, a trailing backslash or non-ASCII characters;
`MatchHostname` constructs a matcher whose call returns at once; and for every
expression that compiles, `MatchRegexp` constructs a matcher whose call fails
only where `MatchString` does, and on the modelled library the call ends within
`size(re) * (len(subject) + 1)` nested calls and returns the boolean of the
matcher of `MatchRegexp`. A URL is a non-nil pointer throughout. -/
theorem matchers_never_fail (quote : String → String) :
    (∀ p : String, normalizePathRun p = .ok (normalizePath p))
    ∧ (∀ (matchFn : Nat → String → String → Except Fault Bool) (pattern : String),
        ∃ m : MatcherRun, MatchPatternRunVia matchFn pattern = .ok m
          ∧ ∀ (fuel : Nat) (u : URL),
              m fuel u = matchFn fuel (u.Host ++ normalizePath u.Path) pattern)
    ∧ (∀ pattern : String,
        ∃ m : MatcherRun, MatchPatternRun pattern = .ok m
          ∧ ∀ (u : URL) (fuel : Nat),
              pattern.length + (u.Host ++ normalizePath u.Path).length < fuel →
              m fuel u = .ok ((MatchPattern pattern).Match u))
    ∧ (∃ (m : MatcherRun) (b : Bool), MatchPatternRun "[a" = .ok m
          ∧ m 8 { Host := "a[a", Path := "" } = .ok b)
    ∧ (∃ (m : MatcherRun) (b : Bool), MatchPatternRun "a*\\" = .ok m
          ∧ m 12 { Host := "", Path := "a\\" } = .ok b)
    ∧ (∃ m : MatcherRun, MatchPatternRun "é.example/*" = .ok m
          ∧ m 16 { Host := "é.example", Path := "ü" } = .ok true)
    ∧ (∀ h : String,
        ∃ m : MatcherRun, MatchHostnameRun h = .ok m
          ∧ ∀ (u : URL) (fuel : Nat), m fuel u = .ok ((MatchHostname h).Match u))
    ∧ (∀ (R : Type) (compile : String → Except String R)
          (matchString : Nat → R → String → Except Fault Bool) (expr : String) (re : R),
        compile expr = .ok re →
        ∃ m : MatcherRun, MatchRegexpRunVia compile matchString quote expr = .ok m
          ∧ ∀ (fuel : Nat) (u : URL),
              m fuel u = matchString fuel re (u.Host ++ normalizePath u.Path))
    ∧ (∀ (expr : String) (re : Re.Regexp), Re.Compile expr = .ok re →
        ∃ (m : MatcherRun) (f : MatcherFunc),
          MatchRegexpRun quote expr = .ok m ∧ MatchRegexp (specStdlib quote) expr = .ok f
          ∧ ∀ (u : URL) (fuel : Nat),
              Re.size re * ((u.Host ++ normalizePath u.Path).length + 1) ≤ fuel →
              m fuel u = .ok (f.Match u))
    ∧ (∃ m : MatcherRun, MatchRegexpRun quote "^(a|b)*c$" = .ok m
          ∧ m 80 { Host := "abba", Path := "c" } = .ok false) := by
  refine ⟨normalizePathRun_eq, fun matchFn pattern => ⟨_, rfl, fun fuel u => ?_⟩,
    fun pattern => ⟨_, rfl, fun u fuel hfuel => ?_⟩, ⟨_, _, rfl, rfl⟩, ⟨_, _, rfl, rfl⟩,
    ⟨_, rfl, rfl⟩, fun h => ⟨_, rfl, fun u fuel => rfl⟩,
    fun R compile matchString expr re hre => ?_, fun expr re hre => ?_, ⟨_, rfl, rfl⟩⟩
  · simp only [normalizePathRun_eq]
  · simp only [normalizePathRun_eq, Glob.MatchRun]
    have hrun := matchFuel_eq fuel pattern.data (u.Host ++ normalizePath u.Path).data hfuel
    rw [hrun]
    rfl
  · refine ⟨fun fuel url =>
        match normalizePathRun url.Path with
        | .error e => .error e
        | .ok path => matchString fuel re (url.Host ++ path), ?_, fun fuel u => ?_⟩
    · simp only [MatchRegexpRunVia, hre]
    · simp only [normalizePathRun_eq]
  · refine ⟨fun fuel url =>
        match normalizePathRun url.Path with
        | .error e => .error e
        | .ok path => Re.MatchStringRun fuel re (url.Host ++ path),
      fun url => Re.MatchString re (url.Host ++ normalizePath url.Path), ?_, ?_, ?_⟩
    · simp only [MatchRegexpRun, MatchRegexpRunVia, hre]
    · simp only [MatchRegexp, specStdlib, hre]
    · intro u fuel hfuel
      simp only [normalizePathRun_eq, MatcherFunc.Match]
      exact MatchStringRun_eq fuel re _ hfuel

end Ant
